import Mathlib

/-!
# Verification of `scripts/syscalls_history.py`

A shallow embedding of the syscall-table history tool: it loads JSON syscall
tables, sorts them by kernel version, validates version uniqueness and
architecture consistency, and prints added/removed/renamed syscalls between
consecutive tables.

The embedding models the program's pure core:
* version-tag parsing (`tag_to_tuple`) and the version-tuple order;
* the number-to-name dictionary built from each table's syscall array;
* the set differences and the rename-detection loop of `main`;
* the report lines produced on standard output, with the ANSI color
  configuration threaded explicitly;
* the control flow of `main` as a function from the argument vector and an
  abstract glob/load environment to the emitted stdout lines and exit kind.
-/

namespace SyscallsHistory

/-! ## Version tuples (`tag_to_tuple`, line 18-24 of the script) -/

/-- A Python version-sort key: either a tuple of integers (for `v5.11`-style
tags) or the single-element tuple `(float('inf'),)` used for `latest`. -/
inductive VTuple where
  | fin : List Int → VTuple
  | inf : VTuple
deriving DecidableEq, Repr

/-- Lexicographic strict comparison of integer tuples, as Python compares
tuples of ints. -/
def lexLt : List Int → List Int → Bool
  | [], [] => false
  | [], _ :: _ => true
  | _ :: _, [] => false
  | a :: l, b :: m => a < b || (a == b && lexLt l m)

/-- Strict comparison of version keys.  `(float('inf'),)` is strictly above
every tuple of integers (its first element exceeds any int, and `()` is a
proper prefix of it), and never strictly below anything reachable. -/
def vtupleLt : VTuple → VTuple → Bool
  | .fin l, .fin m => lexLt l m
  | .fin _, .inf => true
  | .inf, _ => false

/-- Non-strict key comparison used for sorting: `a ≤ b ↔ ¬ b < a`. -/
def vtupleLe (a b : VTuple) : Bool := !vtupleLt b a

/-- Python's `s.split('.')` on a character list: splits at every `'.'`,
keeping empty pieces, and yields `[[]]` on the empty string. -/
def splitDots : List Char → List (List Char)
  | [] => [[]]
  | c :: rest =>
    if c = '.' then [] :: splitDots rest
    else
      match splitDots rest with
      | h :: t => (c :: h) :: t
      | [] => [[c]]

/-- Value of a decimal digit character, `none` for non-digits. -/
def digitVal (c : Char) : Option Nat :=
  if c.isDigit then some (c.toNat - 48) else none

/-- Parse an unsigned decimal numeral; `none` on the empty string or any
non-digit character, as Python's `int` raises `ValueError` there. -/
def digitsToNat (l : List Char) : Option Nat :=
  match l with
  | [] => none
  | _ =>
    l.foldl
      (fun acc c =>
        match acc, digitVal c with
        | some n, some d => some (n * 10 + d)
        | _, _ => none)
      (some 0)

/-- Python's `int` on a string: an optional sign followed by decimal digits. -/
def pyInt (l : List Char) : Option Int :=
  match l with
  | '-' :: rest => (digitsToNat rest).map (fun n => -(n : Int))
  | '+' :: rest => (digitsToNat rest).map (fun n => (n : Int))
  | _ => (digitsToNat l).map (fun n => (n : Int))

/-- Model of `tag_to_tuple`: `latest` maps to the infinite sentinel; a tag starting
with `v` parses the dot-separated integers after the `v`; anything else (or a
failed integer parse) is an unhandled exception, modelled as `none`. -/
def tag_to_tuple (tag : String) : Option VTuple :=
  if tag = "latest" then some VTuple.inf
  else
    match tag.data with
    | 'v' :: rest => ((splitDots rest).mapM pyInt).map VTuple.fin
    | _ => none

/-! ## Tables and the architecture descriptor (`arch_bits_abi`, line 26-29) -/

/-- The fields of one JSON syscall table that the script consumes. -/
structure Table where
  version : String
  archName : String
  bits : Int
  abiName : String
  syscalls : List (Int × String)
deriving DecidableEq, Repr

/-- Model of `arch_bits_abi`: the `name/bits/abi` descriptor string. -/
def arch_bits_abi (t : Table) : String :=
  t.archName ++ "/" ++ Int.repr t.bits ++ "/" ++ t.abiName

/-! ## The per-table number-to-name dictionary (line 72) -/

/-- One insertion into a Python `dict` viewed as an association list in
insertion order: an existing key keeps its position and gets the new value,
a fresh key is appended. -/
def dictInsert (m : List (Int × String)) (k : Int) (v : String) :
    List (Int × String) :=
  if m.any (fun p => p.1 == k) then
    m.map (fun p => if p.1 = k then (k, v) else p)
  else m ++ [(k, v)]

/-- Model of `dict(map(itemgetter(...), table['syscalls'])).items()`:
the number-to-name mapping of a table, later records overwriting earlier
ones at the same number. -/
def buildDict (l : List (Int × String)) : List (Int × String) :=
  l.foldl (fun m p => dictInsert m p.1 p.2) []

/-- Lookup of a number in a number-to-name association list. -/
def lookupD (l : List (Int × String)) (k : Int) : Option String :=
  (l.find? (fun p => p.1 == k)).map (fun p => p.2)

/-- The name of the last record with the given number, if any: the value a
Python dict built from the records holds at that key. -/
def lastVal (l : List (Int × String)) (k : Int) : Option String :=
  ((l.filter (fun p => p.1 == k)).getLast?).map (fun p => p.2)

/-- Python set difference `a - b` on the dict-items views, as the pairs of
`a` not present in `b` (iteration order of the resulting set is immaterial:
every use below is order-insensitive). -/
def pySetDiff (a b : List (Int × String)) : List (Int × String) :=
  a.filter (fun p => !b.contains p)

/-! ## Colors (lines 35-45) -/

/-- The four ANSI color constants of `main`. -/
structure Colors where
  red : String
  green : String
  blue : String
  reset : String
deriving DecidableEq, Repr

/-- Color configuration: real escape codes when stdout is a terminal, all
empty strings otherwise. -/
def mkColors (tty : Bool) : Colors :=
  if tty then ⟨"\x1b[91m", "\x1b[92m", "\x1b[94m", "\x1b[0m"⟩
  else ⟨"", "", "", ""⟩

/-! ## The diff computation (lines 80-102) -/

/-- The mutable state of the diff loops: the `diff` dict (number to
(symbol, text), in insertion order) and the three counters. -/
structure DiffState where
  diff : List (Int × String × String)
  nAdded : Int
  nRemoved : Int
  nRenamed : Int
deriving DecidableEq, Repr

/-- Lookup in the `diff` dict. -/
def lookupDiff (d : List (Int × String × String)) (k : Int) :
    Option (String × String) :=
  (d.find? (fun e => e.1 == k)).map (fun e => e.2)

/-- In-place value update in the `diff` dict (`diff[num] = ...` on an
existing key). -/
def updateDiff (d : List (Int × String × String)) (k : Int)
    (v : String × String) : List (Int × String × String) :=
  d.map (fun e => if e.1 = k then (k, v.1, v.2) else e)

/-- The body of the `for num, name in added` loop (lines 95-102): an already
recorded removal at the same number becomes a rename, otherwise the pair is
recorded as an addition. -/
def applyAdded (C : Colors) (st : DiffState) (p : Int × String) : DiffState :=
  match lookupDiff st.diff p.1 with
  | some (_, oldName) =>
    { diff := updateDiff st.diff p.1 (C.blue ++ "R", oldName ++ " -> " ++ p.2)
      nAdded := st.nAdded - 1
      nRemoved := st.nRemoved - 1
      nRenamed := st.nRenamed + 1 }
  | none =>
    { st with diff := st.diff ++ [(p.1, C.green ++ "+", p.2)] }

/-- Lines 87-102: counters initialised to the set sizes, the removals
recorded first, then the additions folded through `applyAdded`. -/
def computeDiff (C : Colors) (added removed : List (Int × String)) :
    DiffState :=
  added.foldl (applyAdded C)
    { diff := removed.map (fun p => (p.1, C.red ++ "-", p.2))
      nAdded := (added.length : Int)
      nRemoved := (removed.length : Int)
      nRenamed := 0 }

/-- The order on diff entries used by `sorted(diff.items())`: by the syscall
number (the dict keys are distinct, so the number alone decides). -/
def entryLe (a b : Int × String × String) : Prop := a.1 ≤ b.1

instance : DecidableRel entryLe := fun a b => Int.decLe a.1 b.1

instance : IsTotal (Int × String × String) entryLe :=
  ⟨fun a b => Int.le_total a.1 b.1⟩

instance : IsTrans (Int × String × String) entryLe :=
  ⟨fun _ _ _ h h' => le_trans h h'⟩

/-- Model of `sorted(diff.items())` (line 110): a stable sort of the diff
entries, modelled by insertion sort (Python's sort is stable; any stable
sort by the same total preorder produces the same list). -/
def sortDiff (d : List (Int × String × String)) :
    List (Int × String × String) :=
  d.insertionSort entryLe

/-! ## Report formatting (lines 74, 104-111) -/

/-- Python `str.ljust`: pad with spaces on the right up to the width. -/
def ljust (s : String) (w : Nat) : String :=
  s ++ String.mk (List.replicate (w - s.length) ' ')

/-- Left-padding (Python `str.rjust`): spaces on the left up to the width.
Not used by the program; stated only to compare against the claimed
rendering of the count line. -/
def rjust (s : String) (w : Nat) : String :=
  String.mk (List.replicate (w - s.length) ' ') ++ s

/-- The ASCII escape character that starts every ANSI color sequence. -/
def escChar : Char := Char.ofNat 27

/-- A string free of the escape character. -/
def EscFreeStr (s : String) : Prop := ∀ c ∈ s.data, c ≠ escChar

instance (s : String) : Decidable (EscFreeStr s) :=
  List.decidableBAll _ s.data

/-- A table whose printed fields (version tag, syscall names) are free of
the escape character. -/
def TableEscFree (t : Table) : Prop :=
  EscFreeStr t.version ∧ ∀ p ∈ t.syscalls, EscFreeStr p.2

instance (t : Table) : Decidable (TableEscFree t) := by
  unfold TableEscFree
  infer_instance

/-- A color configuration whose four codes are free of the escape
character (as produced by `mkColors false`). -/
def ColorsEscFree (C : Colors) : Prop :=
  EscFreeStr C.red ∧ EscFreeStr C.green ∧ EscFreeStr C.blue ∧
    EscFreeStr C.reset

/-- A lowercase hexadecimal numeral. -/
def natHex (n : Nat) : String := (Nat.toDigits 16 n).asString

/-- Python's `format(n, '#x')`: `0x`-prefixed lowercase hex, with a leading
minus sign for negative values. -/
def pyHexFmt (n : Int) : String :=
  if n < 0 then "-0x" ++ natHex (-n).toNat else "0x" ++ natHex n.toNat

/-- The count line of line 74: `tag.ljust(5)`, a colon, the number of
syscalls. -/
def countLine (t : Table) (n : Nat) : String :=
  ljust t.version 5 ++ ": " ++ Nat.repr n ++ " syscalls"

/-- The parenthesized summary of lines 104-108, appended to the count line
when the pair has differences. -/
def summaryText (C : Colors) (st : DiffState) : String :=
  " ("
    ++ (if st.nAdded != 0 then C.green ++ "+" ++ Int.repr st.nAdded ++ C.reset
        else "")
    ++ (if st.nRemoved != 0 then
          (if st.nAdded != 0 then "/" else "")
            ++ C.red ++ "-" ++ Int.repr st.nRemoved ++ C.reset
        else "")
    ++ (if st.nRenamed != 0 then
          (if st.nAdded != 0 || st.nRemoved != 0 then ", " else "")
            ++ C.blue ++ Int.repr st.nRenamed ++ " renamed" ++ C.reset
        else "")
    ++ ")"

/-- One per-entry diff line of line 111. -/
def diffLine (C : Colors) (e : Int × String × String) : String :=
  "       " ++ e.2.1 ++ " " ++ Int.repr e.1 ++ " (" ++ pyHexFmt e.1 ++ ") "
    ++ e.2.2 ++ C.reset

/-! ## The main loop (lines 60-111) -/

/-- Exit disposition of a run: normal termination, the usage error, the
duplicate-version error, the incompatible-architecture error, or an
unhandled exception from version-tag parsing during the sort. -/
inductive ExitKind where
  | ok
  | usage
  | dupVersion
  | archMismatch
  | parseFail
deriving DecidableEq, Repr

/-- The stdout lines one loop iteration emits for a table whose dict is
`sys` and whose count line is `base`, when the previous table's dict is
`ps` (lines 76-111): the bare count line when nothing changed, otherwise
the count line with the summary followed by the sorted diff lines. -/
def pairLines (C : Colors) (ps sys : List (Int × String)) (base : String) :
    List String :=
  let added := pySetDiff sys ps
  let removed := pySetDiff ps sys
  if added.isEmpty && removed.isEmpty then [base]
  else
    let st := computeDiff C added removed
    (base ++ summaryText C st) :: (sortDiff st.diff).map (diffLine C)

/-- The `for table in tables` loop: threads the previous architecture
descriptor and the previous syscall dict, and returns the stdout lines it
emits together with the exit kind. -/
def processTables (C : Colors) (prevArch : Option String)
    (prevSys : Option (List (Int × String))) :
    List Table → List String × ExitKind
  | [] => ([], ExitKind.ok)
  | t :: rest =>
    let arch := arch_bits_abi t
    if (match prevArch with
        | some pa => pa != arch
        | none => false : Bool) then
      ([], ExitKind.archMismatch)
    else
      let sys := buildDict t.syscalls
      let base := countLine t sys.length
      let cur : List String :=
        match prevSys with
        | none => [base]
        | some ps => pairLines C ps sys base
      let r := processTables C (some arch) (some sys) rest
      (cur ++ r.1, r.2)

/-- The loader loop of lines 49-52: each pattern argument expands, through
the abstract glob/parse environment `fs`, to the tables of its matching
files, appended in order. -/
def loadTables (fs : String → List Table) (pats : List String) : List Table :=
  pats.foldl (fun acc p => acc ++ fs p) []

/-- The sort key of line 54.  (The default for an unparsable tag is never
consulted: `runMain` only sorts after every tag has parsed.) -/
def tableKey (t : Table) : VTuple :=
  (tag_to_tuple t.version).getD (VTuple.fin [])

/-- The table order induced by the version key. -/
def tableLe (a b : Table) : Prop := vtupleLe (tableKey a) (tableKey b) = true

instance : DecidableRel tableLe := fun a b =>
  instDecidableEqBool (vtupleLe (tableKey a) (tableKey b)) true

/-- Model of `tables.sort(key=...)` (line 54): a stable sort by version
key, modelled by insertion sort (Python's sort is stable; any stable sort
by the same total preorder produces the same list). -/
def sortByVersion (ts : List Table) : List Table :=
  ts.insertionSort tableLe

/-- The whole of `main`: from the terminal flag, the glob/parse environment
and the argument vector (program name included) to the emitted stdout lines
and the exit kind. -/
def runMain (tty : Bool) (fs : String → List Table) (argv : List String) :
    List String × ExitKind :=
  if argv.length < 3 then ([], ExitKind.usage)
  else
    let tables := loadTables fs (argv.drop 1)
    if !(tables.all (fun t => (tag_to_tuple t.version).isSome)) then
      ([], ExitKind.parseFail)
    else
      let sorted := sortByVersion tables
      if (sorted.map (fun t => t.version)).dedup.length != sorted.length then
        ([], ExitKind.dupVersion)
      else
        processTables (mkColors tty) none none sorted

/-! ## Concrete fixtures used by the examples of the specification -/

/-- The rename example: one table with `(5, "foo")`. -/
def exFoo : Table := ⟨"v5.10", "x86", 64, "x64", [(5, "foo")]⟩

/-- The rename example: the next version with `(5, "bar")`. -/
def exBar : Table := ⟨"v5.11", "x86", 64, "x64", [(5, "bar")]⟩

/-- Environment resolving pattern `a` to the `foo` table and `b` to the
`bar` table. -/
def fsRename : String → List Table := fun p =>
  if p = "a" then [exFoo] else if p = "b" then [exBar] else []

/-- The pure-addition example: `{(0, read), (1, write)}`. -/
def exRW : Table := ⟨"v5.10", "x86", 64, "x64", [(0, "read"), (1, "write")]⟩

/-- The pure-addition example: `{(0, read), (1, write), (2, open)}`. -/
def exRWO : Table :=
  ⟨"v5.11", "x86", 64, "x64", [(0, "read"), (1, "write"), (2, "open")]⟩

/-- Environment for the pure-addition example. -/
def fsAdd : String → List Table := fun p =>
  if p = "a" then [exRW] else if p = "b" then [exRWO] else []

/-- Environment resolving the single pattern `pat` to two tables. -/
def fsTwoInOne : String → List Table := fun p =>
  if p = "pat" then [exFoo, exBar] else []

/-- A minimal table with the given version tag. -/
def mkVer (v : String) : Table := ⟨v, "x86", 64, "x64", []⟩

/-- Two tables sharing the tag `v5.11`. -/
def exDupA : Table := ⟨"v5.11", "x86", 64, "x64", [(0, "read")]⟩

/-- Second table tagged `v5.11`, with different content. -/
def exDupB : Table := ⟨"v5.11", "x86", 64, "x64", [(1, "write")]⟩

/-- Environment for the duplicate-version example. -/
def fsDup : String → List Table := fun p =>
  if p = "a" then [exDupA] else if p = "b" then [exDupB] else []

/-- Arch-mismatch example: an x86 table. -/
def exArchA : Table := ⟨"v5.10", "x86", 64, "x64", [(0, "read")]⟩

/-- Arch-mismatch example: an arm table at the next version. -/
def exArchB : Table := ⟨"v5.11", "arm", 64, "aapcs", [(0, "read")]⟩

/-- Environment for the arch-mismatch example. -/
def fsArch : String → List Table := fun p =>
  if p = "a" then [exArchA] else if p = "b" then [exArchB] else []

/-- Padding example: a 4-character tag. -/
def exPadA : Table := ⟨"v6.0", "x86", 64, "x64", [(0, "read")]⟩

/-- Padding example: the follow-up table. -/
def exPadB : Table := ⟨"latest", "x86", 64, "x64", [(0, "read")]⟩

/-- Environment for the padding example. -/
def fsPad : String → List Table := fun p =>
  if p = "a" then [exPadA] else if p = "b" then [exPadB] else []

/-- A table whose only syscall name starts with an ANSI escape sequence. -/
def exEscB : Table := ⟨"v5.11", "x86", 64, "x64", [(0, "\x1b[92mpwn")]⟩

/-- Environment for the escape-in-input example. -/
def fsEsc : String → List Table := fun p =>
  if p = "a" then [mkVer "v5.10"] else if p = "b" then [exEscB] else []

/-! ## The version order is a total preorder -/

theorem lexLt_trans :
    ∀ {a b c : List Int}, lexLt a b = true → lexLt b c = true →
      lexLt a c = true := by
  intro a
  induction a with
  | nil =>
    intro b c hab hbc
    cases b with
    | nil => simp [lexLt] at hab
    | cons y ys =>
      cases c with
      | nil => simp [lexLt] at hbc
      | cons z zs => simp [lexLt]
  | cons x xs ih =>
    intro b c hab hbc
    cases b with
    | nil => simp [lexLt] at hab
    | cons y ys =>
      cases c with
      | nil => simp [lexLt] at hbc
      | cons z zs =>
        simp only [lexLt, Bool.or_eq_true, Bool.and_eq_true, decide_eq_true_eq,
          beq_iff_eq] at hab hbc ⊢
        rcases hab with hab | ⟨hab, hab'⟩ <;> rcases hbc with hbc | ⟨hbc, hbc'⟩
        · exact Or.inl (lt_trans hab hbc)
        · exact Or.inl (hbc ▸ hab)
        · exact Or.inl (hab ▸ hbc)
        · exact Or.inr ⟨hab.trans hbc, ih hab' hbc'⟩

theorem lexLt_trichotomy :
    ∀ (a b : List Int), lexLt a b = true ∨ a = b ∨ lexLt b a = true := by
  intro a
  induction a with
  | nil =>
    intro b
    cases b with
    | nil => exact Or.inr (Or.inl rfl)
    | cons y ys => exact Or.inl (by simp [lexLt])
  | cons x xs ih =>
    intro b
    cases b with
    | nil => exact Or.inr (Or.inr (by simp [lexLt]))
    | cons y ys =>
      rcases lt_trichotomy x y with h | h | h
      · exact Or.inl (by simp [lexLt, h])
      · rcases ih ys with h' | h' | h'
        · exact Or.inl (by simp [lexLt, h, h'])
        · exact Or.inr (Or.inl (by rw [h, h']))
        · exact Or.inr (Or.inr (by simp [lexLt, h.symm, h']))
      · exact Or.inr (Or.inr (by simp [lexLt, h]))

theorem lexLt_asymm {a b : List Int}
    (hab : lexLt a b = true) (hba : lexLt b a = true) : False := by
  induction a generalizing b with
  | nil => cases b <;> simp [lexLt] at hab hba
  | cons x xs ih =>
    cases b with
    | nil => simp [lexLt] at hab
    | cons y ys =>
      simp only [lexLt, Bool.or_eq_true, Bool.and_eq_true, decide_eq_true_eq,
        beq_iff_eq] at hab hba
      rcases hab with hab | ⟨hab, hab'⟩ <;> rcases hba with hba | ⟨hba, hba'⟩
      · exact absurd hba (lt_asymm hab)
      · exact absurd (hba ▸ hab) (lt_irrefl y)
      · exact absurd (hab ▸ hba) (lt_irrefl x)
      · exact ih hab' hba'

theorem vtupleLt_trans {a b c : VTuple} (hab : vtupleLt a b = true)
    (hbc : vtupleLt b c = true) : vtupleLt a c = true := by
  cases a with
  | inf => simp [vtupleLt] at hab
  | fin l =>
    cases c with
    | inf => cases b <;> rfl
    | fin n =>
      cases b with
      | inf => simp [vtupleLt] at hbc
      | fin m => exact lexLt_trans hab hbc

theorem vtupleLt_asymm {a b : VTuple} (hab : vtupleLt a b = true)
    (hba : vtupleLt b a = true) : False := by
  cases a with
  | inf => simp [vtupleLt] at hab
  | fin l =>
    cases b with
    | inf => simp [vtupleLt] at hba
    | fin m => exact lexLt_asymm hab hba

theorem vtupleLe_total (a b : VTuple) :
    vtupleLe a b = true ∨ vtupleLe b a = true := by
  by_cases h : vtupleLt b a = true
  · right
    simp only [vtupleLe, Bool.not_eq_true']
    by_contra h'
    simp only [Bool.not_eq_false] at h'
    exact vtupleLt_asymm h h'
  · left
    simp [vtupleLe, Bool.not_eq_true] at h ⊢
    exact h

theorem vtupleLt_trichotomy (a b : VTuple) :
    vtupleLt a b = true ∨ a = b ∨ vtupleLt b a = true := by
  cases a with
  | inf =>
    cases b with
    | inf => exact Or.inr (Or.inl rfl)
    | fin m => exact Or.inr (Or.inr rfl)
  | fin l =>
    cases b with
    | inf => exact Or.inl rfl
    | fin m =>
      rcases lexLt_trichotomy l m with h | h | h
      · exact Or.inl h
      · exact Or.inr (Or.inl (by rw [h]))
      · exact Or.inr (Or.inr h)

theorem vtupleLe_trans {a b c : VTuple} (hab : vtupleLe a b = true)
    (hbc : vtupleLe b c = true) : vtupleLe a c = true := by
  simp only [vtupleLe, Bool.not_eq_true'] at hab hbc ⊢
  by_contra hcon
  simp only [Bool.not_eq_false] at hcon
  rcases vtupleLt_trichotomy b a with h | h | h
  · exact absurd h (by simp [hab])
  · subst h
    exact absurd hcon (by simp [hbc])
  · exact absurd (vtupleLt_trans hcon h) (by simp [hbc])

instance : IsTotal Table tableLe :=
  ⟨fun a b => vtupleLe_total (tableKey a) (tableKey b)⟩

instance : IsTrans Table tableLe := ⟨fun _ _ _ h h' => vtupleLe_trans h h'⟩

/-! ## Dictionary and set-difference lemmas -/

theorem lookupD_cons (p : Int × String) (l : List (Int × String)) (k : Int) :
    lookupD (p :: l) k = if p.1 = k then some p.2 else lookupD l k := by
  by_cases h : p.1 = k <;> simp [lookupD, List.find?_cons, h]

theorem dictInsert_keys (m : List (Int × String)) (k : Int) (v : String) :
    (dictInsert m k v).map Prod.fst
      = if m.any (fun p => p.1 == k) then m.map Prod.fst
        else m.map Prod.fst ++ [k] := by
  unfold dictInsert
  split
  · rw [List.map_map]
    refine List.map_congr_left ?_
    intro p _
    by_cases h : p.1 = k <;> simp [h]
  · simp

theorem dictInsert_keys_mem (m : List (Int × String)) (k : Int) (v : String)
    (j : Int) :
    j ∈ (dictInsert m k v).map Prod.fst ↔ j ∈ m.map Prod.fst ∨ j = k := by
  rw [dictInsert_keys]
  split
  · rename_i hany
    simp only [List.any_eq_true, beq_iff_eq] at hany
    obtain ⟨q, hq, hqk⟩ := hany
    constructor
    · exact Or.inl
    · rintro (h | rfl)
      · exact h
      · exact List.mem_map.2 ⟨q, hq, hqk⟩
  · simp

theorem dictInsert_keys_nodup {m : List (Int × String)} (k : Int) (v : String)
    (h : (m.map Prod.fst).Nodup) :
    ((dictInsert m k v).map Prod.fst).Nodup := by
  rw [dictInsert_keys]
  split
  · exact h
  · rename_i hany
    simp only [List.any_eq_true, beq_iff_eq, not_exists] at hany
    rw [List.nodup_append]
    refine ⟨h, List.nodup_singleton k, ?_⟩
    intro j hj hjk
    simp only [List.mem_singleton] at hjk
    subst hjk
    obtain ⟨q, hq, hqj⟩ := List.mem_map.1 hj
    exact hany q ⟨hq, hqj⟩

theorem dictInsert_values {P : String → Prop} {m : List (Int × String)}
    {k : Int} {v : String} (hm : ∀ p ∈ m, P p.2) (hv : P v) :
    ∀ p ∈ dictInsert m k v, P p.2 := by
  intro p hp
  unfold dictInsert at hp
  split at hp
  · obtain ⟨q, hq, hqp⟩ := List.mem_map.1 hp
    by_cases h : q.1 = k
    · simp only [h, beq_self_eq_true, if_true] at hqp
      exact hqp ▸ hv
    · simp only [beq_iff_eq, h, if_false] at hqp
      exact hqp ▸ hm q hq
  · rcases List.mem_append.1 hp with h | h
    · exact hm p h
    · simp only [List.mem_singleton] at h
      exact h ▸ hv

theorem buildDict_keys_nodup_aux :
    ∀ (l acc : List (Int × String)), (acc.map Prod.fst).Nodup →
      ((l.foldl (fun m p => dictInsert m p.1 p.2) acc).map Prod.fst).Nodup := by
  intro l
  induction l with
  | nil => intro acc h; exact h
  | cons p rest ih =>
    intro acc h
    exact ih _ (dictInsert_keys_nodup p.1 p.2 h)

theorem buildDict_keys_nodup (l : List (Int × String)) :
    ((buildDict l).map Prod.fst).Nodup :=
  buildDict_keys_nodup_aux l [] (by simp)

theorem buildDict_keys_mem_aux :
    ∀ (l acc : List (Int × String)) (j : Int),
      j ∈ ((l.foldl (fun m p => dictInsert m p.1 p.2) acc).map Prod.fst) ↔
        j ∈ acc.map Prod.fst ∨ j ∈ l.map Prod.fst := by
  intro l
  induction l with
  | nil => intro acc j; simp
  | cons p rest ih =>
    intro acc j
    simp only [List.foldl_cons]
    rw [ih]
    rw [dictInsert_keys_mem]
    simp only [List.map_cons, List.mem_cons]
    tauto

theorem buildDict_keys_mem (l : List (Int × String)) (j : Int) :
    j ∈ (buildDict l).map Prod.fst ↔ j ∈ l.map Prod.fst := by
  rw [buildDict, buildDict_keys_mem_aux]
  simp

theorem buildDict_values {P : String → Prop} {l : List (Int × String)}
    (hl : ∀ p ∈ l, P p.2) : ∀ p ∈ buildDict l, P p.2 := by
  suffices h : ∀ (l acc : List (Int × String)), (∀ p ∈ l, P p.2) →
      (∀ p ∈ acc, P p.2) →
      ∀ p ∈ l.foldl (fun m p => dictInsert m p.1 p.2) acc, P p.2 by
    exact h l [] hl (by simp)
  intro l
  induction l with
  | nil => intro acc _ hacc; exact hacc
  | cons q rest ih =>
    intro acc hl' hacc
    refine ih _ (fun p hp => hl' p (List.mem_cons_of_mem q hp)) ?_
    exact dictInsert_values hacc (hl' q (List.mem_cons_self q rest))

theorem buildDict_length (l : List (Int × String)) :
    (buildDict l).length = ((l.map Prod.fst).dedup).length := by
  have h1 : ((buildDict l).map Prod.fst).Nodup := buildDict_keys_nodup l
  have h2 : ((l.map Prod.fst).dedup).Nodup := List.nodup_dedup _
  have hperm : ((buildDict l).map Prod.fst).Perm ((l.map Prod.fst).dedup) :=
    (List.perm_ext_iff_of_nodup h1 h2).2 fun j => by
      rw [buildDict_keys_mem, List.mem_dedup]
  have := hperm.length_eq
  rwa [List.length_map] at this

theorem pySetDiff_mem (a b : List (Int × String)) (p : Int × String) :
    p ∈ pySetDiff a b ↔ p ∈ a ∧ p ∉ b := by
  simp [pySetDiff, List.mem_filter, List.contains]

theorem pySetDiff_sublist (a b : List (Int × String)) :
    (pySetDiff a b).Sublist a :=
  List.filter_sublist a

theorem pySetDiff_keys_nodup {a : List (Int × String)}
    (b : List (Int × String)) (ha : (a.map Prod.fst).Nodup) :
    ((pySetDiff a b).map Prod.fst).Nodup :=
  ((pySetDiff_sublist a b).map Prod.fst).nodup ha

/-! ## Lemmas about the association lookups -/

theorem lookupD_eq_none (l : List (Int × String)) (k : Int) :
    lookupD l k = none ↔ k ∉ l.map Prod.fst := by
  rw [lookupD, Option.map_eq_none', List.find?_eq_none]
  constructor
  · intro h hk
    obtain ⟨p, hp, hpk⟩ := List.mem_map.1 hk
    exact h p hp (by simpa using hpk)
  · intro h p hp hpk
    exact h (List.mem_map.2 ⟨p, hp, by simpa using hpk⟩)

theorem lookupD_eq_some_of_mem :
    ∀ {l : List (Int × String)}, (l.map Prod.fst).Nodup →
      ∀ {k : Int} {v : String}, (k, v) ∈ l → lookupD l k = some v := by
  intro l
  induction l with
  | nil => intro _ k v h; cases h
  | cons p rest ih =>
    intro hnd k v h
    simp only [List.map_cons, List.nodup_cons] at hnd
    rw [lookupD_cons]
    rcases List.mem_cons.1 h with h | h
    · simp [← h]
    · have hk : p.1 ≠ k := by
        intro he
        exact hnd.1 (he ▸ List.mem_map.2 ⟨(k, v), h, rfl⟩)
      rw [if_neg hk]
      exact ih hnd.2 h

theorem lookupDiff_cons (e : Int × String × String)
    (d : List (Int × String × String)) (k : Int) :
    lookupDiff (e :: d) k = if e.1 = k then some e.2 else lookupDiff d k := by
  by_cases h : e.1 = k <;> simp [lookupDiff, List.find?_cons, h]

theorem lookupDiff_eq_none (d : List (Int × String × String)) (k : Int) :
    lookupDiff d k = none ↔ k ∉ d.map Prod.fst := by
  rw [lookupDiff, Option.map_eq_none', List.find?_eq_none]
  constructor
  · intro h hk
    obtain ⟨e, he, hek⟩ := List.mem_map.1 hk
    exact h e he (by simpa using hek)
  · intro h e he hek
    exact h (List.mem_map.2 ⟨e, he, by simpa using hek⟩)

theorem lookupDiff_mem {d : List (Int × String × String)} {k : Int}
    {v : String × String} (h : lookupDiff d k = some v) : (k, v) ∈ d := by
  rw [lookupDiff, Option.map_eq_some'] at h
  obtain ⟨e, he, hev⟩ := h
  have hk : e.1 = k := by simpa using List.find?_some he
  have hm := List.mem_of_find?_eq_some he
  have he2 : e = (k, v) := by
    obtain ⟨e1, e2⟩ := e
    simp only at hk hev
    rw [hk, hev]
  rwa [he2] at hm

/-! ## Lemmas about the diff loops -/

theorem updateDiff_keys (d : List (Int × String × String)) (k : Int)
    (v : String × String) :
    (updateDiff d k v).map Prod.fst = d.map Prod.fst := by
  unfold updateDiff
  rw [List.map_map]
  refine List.map_congr_left ?_
  intro e _
  by_cases h : e.1 = k <;> simp [h]

theorem updateDiff_length (d : List (Int × String × String)) (k : Int)
    (v : String × String) : (updateDiff d k v).length = d.length :=
  List.length_map d _

theorem lookupDiff_updateDiff_ne (d : List (Int × String × String))
    (k : Int) (v : String × String) (q : Int) (h : q ≠ k) :
    lookupDiff (updateDiff d k v) q = lookupDiff d q := by
  induction d with
  | nil => rfl
  | cons e rest ih =>
    unfold updateDiff
    simp only [List.map_cons]
    by_cases he : e.1 = k
    · rw [if_pos he, lookupDiff_cons, lookupDiff_cons,
        if_neg (show ((k, v.1, v.2) : Int × String × String).1 ≠ q from
          fun hh => h hh.symm),
        if_neg (show e.1 ≠ q from fun hh => h (hh ▸ he))]
      exact ih
    · rw [if_neg he, lookupDiff_cons, lookupDiff_cons]
      by_cases heq : e.1 = q
      · rw [if_pos heq, if_pos heq]
      · rw [if_neg heq, if_neg heq]
        exact ih

theorem lookupDiff_updateDiff_self {d : List (Int × String × String)}
    {k : Int} (v : String × String) {w : String × String}
    (h : lookupDiff d k = some w) :
    lookupDiff (updateDiff d k v) k = some v := by
  induction d with
  | nil => simp [lookupDiff] at h
  | cons e rest ih =>
    rw [lookupDiff_cons] at h
    unfold updateDiff
    simp only [List.map_cons]
    by_cases he : e.1 = k
    · rw [if_pos he, lookupDiff_cons, if_pos rfl]
    · rw [if_neg he] at h
      rw [if_neg he, lookupDiff_cons, if_neg he]
      exact ih h

theorem lookupDiff_append_single_ne (d : List (Int × String × String))
    (a : Int × String × String) (q : Int) (h : q ≠ a.1) :
    lookupDiff (d ++ [a]) q = lookupDiff d q := by
  induction d with
  | nil =>
    rw [List.nil_append, lookupDiff_cons, if_neg (Ne.symm h)]
  | cons e rest ih =>
    rw [List.cons_append, lookupDiff_cons, lookupDiff_cons, ih]

theorem lookupDiff_append_single_self (d : List (Int × String × String))
    (a : Int × String × String) (h : lookupDiff d a.1 = none) :
    lookupDiff (d ++ [a]) a.1 = some a.2 := by
  induction d with
  | nil => simp [lookupDiff, List.find?_cons]
  | cons e rest ih =>
    rw [lookupDiff_cons] at h
    rw [List.cons_append, lookupDiff_cons]
    by_cases he : e.1 = a.1
    · rw [if_pos he] at h
      cases h
    · rw [if_neg he] at h
      rw [if_neg he]
      exact ih h

theorem applyAdded_lookup_ne (C : Colors) (st : DiffState)
    (p : Int × String) (q : Int) (h : q ≠ p.1) :
    lookupDiff (applyAdded C st p).diff q = lookupDiff st.diff q := by
  unfold applyAdded
  cases hl : lookupDiff st.diff p.1 with
  | some w =>
    cases w with
    | mk op old => exact lookupDiff_updateDiff_ne _ _ _ _ h
  | none => exact lookupDiff_append_single_ne _ _ _ h

theorem applyAdded_lookup_self_some (C : Colors) (st : DiffState)
    (p : Int × String) (w : String × String)
    (hl : lookupDiff st.diff p.1 = some w) :
    lookupDiff (applyAdded C st p).diff p.1
      = some (C.blue ++ "R", w.2 ++ " -> " ++ p.2) := by
  obtain ⟨op, old⟩ := w
  unfold applyAdded
  rw [hl]
  exact lookupDiff_updateDiff_self _ hl

theorem applyAdded_lookup_self_none (C : Colors) (st : DiffState)
    (p : Int × String) (hl : lookupDiff st.diff p.1 = none) :
    lookupDiff (applyAdded C st p).diff p.1
      = some (C.green ++ "+", p.2) := by
  unfold applyAdded
  rw [hl]
  exact lookupDiff_append_single_self _ (p.1, C.green ++ "+", p.2) hl

theorem applyAdded_counters_some (C : Colors) (st : DiffState)
    (p : Int × String) (h : (lookupDiff st.diff p.1).isSome = true) :
    (applyAdded C st p).nRenamed = st.nRenamed + 1 ∧
    (applyAdded C st p).nAdded = st.nAdded - 1 ∧
    (applyAdded C st p).nRemoved = st.nRemoved - 1 ∧
    (applyAdded C st p).diff.length = st.diff.length := by
  unfold applyAdded
  cases hl : lookupDiff st.diff p.1 with
  | some w =>
    cases w with
    | mk op old => exact ⟨rfl, rfl, rfl, updateDiff_length _ _ _⟩
  | none => rw [hl] at h; cases h

theorem applyAdded_counters_none (C : Colors) (st : DiffState)
    (p : Int × String) (h : lookupDiff st.diff p.1 = none) :
    (applyAdded C st p).nRenamed = st.nRenamed ∧
    (applyAdded C st p).nAdded = st.nAdded ∧
    (applyAdded C st p).nRemoved = st.nRemoved ∧
    (applyAdded C st p).diff.length = st.diff.length + 1 := by
  unfold applyAdded
  rw [h]
  exact ⟨rfl, rfl, rfl, by simp⟩

theorem applyAdded_keys_nodup (C : Colors) (st : DiffState)
    (p : Int × String) (h : (st.diff.map Prod.fst).Nodup) :
    (((applyAdded C st p).diff).map Prod.fst).Nodup := by
  unfold applyAdded
  cases hl : lookupDiff st.diff p.1 with
  | some w =>
    cases w with
    | mk op old => simpa [updateDiff_keys] using h
  | none =>
    have hmem : p.1 ∉ st.diff.map Prod.fst := (lookupDiff_eq_none _ _).1 hl
    simp only [List.map_append, List.map_cons, List.map_nil]
    rw [List.nodup_append]
    exact ⟨h, List.nodup_singleton _, by
      intro j hj hjk
      simp only [List.mem_singleton] at hjk
      exact hmem (hjk ▸ hj)⟩

/-! ## The fold over the added set -/

theorem foldl_applyAdded_lookup (C : Colors) :
    ∀ (as : List (Int × String)) (st : DiffState),
      (as.map Prod.fst).Nodup → ∀ q : Int,
      lookupDiff (as.foldl (applyAdded C) st).diff q
        = match lookupD as q, lookupDiff st.diff q with
          | none, d => d
          | some a, some w => some (C.blue ++ "R", w.2 ++ " -> " ++ a)
          | some a, none => some (C.green ++ "+", a) := by
  intro as
  induction as with
  | nil =>
    intro st _ q
    simp only [List.foldl_nil, lookupD]
    cases lookupDiff st.diff q <;> rfl
  | cons p rest ih =>
    intro st hnd q
    simp only [List.map_cons, List.nodup_cons] at hnd
    simp only [List.foldl_cons]
    by_cases hq : q = p.1
    · have hrest : lookupD rest q = none :=
        (lookupD_eq_none rest q).2 (by rw [hq]; exact hnd.1)
      rw [ih (applyAdded C st p) hnd.2 q, hrest, lookupD_cons,
        if_pos hq.symm, hq]
      cases hl : lookupDiff st.diff p.1 with
      | some w =>
        rw [applyAdded_lookup_self_some C st p w hl]
      | none =>
        rw [applyAdded_lookup_self_none C st p hl]
    · rw [ih (applyAdded C st p) hnd.2 q,
        applyAdded_lookup_ne C st p q hq,
        lookupD_cons, if_neg (Ne.symm hq)]

theorem foldl_applyAdded_counters (C : Colors) :
    ∀ (as : List (Int × String)) (st : DiffState),
      (as.map Prod.fst).Nodup →
      (as.foldl (applyAdded C) st).nRenamed
          = st.nRenamed + ((as.filter
              (fun p => (lookupDiff st.diff p.1).isSome)).length : Int) ∧
      (as.foldl (applyAdded C) st).nAdded
          = st.nAdded - ((as.filter
              (fun p => (lookupDiff st.diff p.1).isSome)).length : Int) ∧
      (as.foldl (applyAdded C) st).nRemoved
          = st.nRemoved - ((as.filter
              (fun p => (lookupDiff st.diff p.1).isSome)).length : Int) ∧
      (as.foldl (applyAdded C) st).diff.length
          = st.diff.length + (as.filter
              (fun p => (lookupDiff st.diff p.1).isNone)).length := by
  intro as
  induction as with
  | nil => intro st _; simp
  | cons p rest ih =>
    intro st hnd
    simp only [List.map_cons, List.nodup_cons] at hnd
    simp only [List.foldl_cons]
    have hfc : ∀ q ∈ rest,
        (lookupDiff (applyAdded C st p).diff q.1).isSome
          = (lookupDiff st.diff q.1).isSome := by
      intro q hq
      have : q.1 ≠ p.1 := by
        intro he
        exact hnd.1 (he ▸ List.mem_map.2 ⟨q, hq, rfl⟩)
      rw [applyAdded_lookup_ne C st p q.1 this]
    have hfc' : ∀ q ∈ rest,
        (lookupDiff (applyAdded C st p).diff q.1).isNone
          = (lookupDiff st.diff q.1).isNone := by
      intro q hq
      have : q.1 ≠ p.1 := by
        intro he
        exact hnd.1 (he ▸ List.mem_map.2 ⟨q, hq, rfl⟩)
      rw [applyAdded_lookup_ne C st p q.1 this]
    obtain ⟨ih1, ih2, ih3, ih4⟩ := ih (applyAdded C st p) hnd.2
    rw [List.filter_congr hfc] at ih1 ih2 ih3
    rw [List.filter_congr hfc'] at ih4
    cases hl : (lookupDiff st.diff p.1).isSome with
    | true =>
      obtain ⟨c1, c2, c3, c4⟩ := applyAdded_counters_some C st p hl
      have hln : (lookupDiff st.diff p.1).isNone = false := by
        cases h : lookupDiff st.diff p.1 <;> simp_all
      refine ⟨?_, ?_, ?_, ?_⟩
      · rw [ih1, c1, List.filter_cons_of_pos (by simpa using hl)]
        simp only [List.length_cons]
        omega
      · rw [ih2, c2, List.filter_cons_of_pos (by simpa using hl)]
        simp only [List.length_cons]
        omega
      · rw [ih3, c3, List.filter_cons_of_pos (by simpa using hl)]
        simp only [List.length_cons]
        omega
      · rw [ih4, c4, List.filter_cons_of_neg (by simp [hln])]
    | false =>
      have hln : lookupDiff st.diff p.1 = none := by
        cases h : lookupDiff st.diff p.1 <;> simp_all
      obtain ⟨c1, c2, c3, c4⟩ := applyAdded_counters_none C st p hln
      refine ⟨?_, ?_, ?_, ?_⟩
      · rw [ih1, c1, List.filter_cons_of_neg (by simp [hl])]
      · rw [ih2, c2, List.filter_cons_of_neg (by simp [hl])]
      · rw [ih3, c3, List.filter_cons_of_neg (by simp [hl])]
      · rw [ih4, c4, List.filter_cons_of_pos (by simp [hln])]
        simp only [List.length_cons]
        omega

theorem foldl_applyAdded_keys_nodup (C : Colors) :
    ∀ (as : List (Int × String)) (st : DiffState),
      (st.diff.map Prod.fst).Nodup →
      (((as.foldl (applyAdded C) st).diff).map Prod.fst).Nodup := by
  intro as
  induction as with
  | nil => intro st h; exact h
  | cons p rest ih =>
    intro st h
    exact ih _ (applyAdded_keys_nodup C st p h)

/-! ## The specification of `computeDiff` -/

theorem lookupD_mem {l : List (Int × String)} {k : Int} {v : String}
    (h : lookupD l k = some v) : (k, v) ∈ l := by
  rw [lookupD, Option.map_eq_some'] at h
  obtain ⟨e, he, hev⟩ := h
  have hk : e.1 = k := by simpa using List.find?_some he
  have hm := List.mem_of_find?_eq_some he
  have he2 : e = (k, v) := by
    obtain ⟨e1, e2⟩ := e
    simp only at hk hev
    rw [hk, hev]
  rwa [he2] at hm

theorem lookupD_isSome (l : List (Int × String)) (k : Int) :
    (lookupD l k).isSome = decide (k ∈ l.map Prod.fst) := by
  cases h : lookupD l k with
  | some v =>
    have hm : k ∈ l.map Prod.fst :=
      List.mem_map.2 ⟨(k, v), lookupD_mem h, rfl⟩
    simp [hm]
  | none =>
    have := (lookupD_eq_none l k).1 h
    simp [this]

theorem lookupDiff_map_removed (op : String)
    (removed : List (Int × String)) (k : Int) :
    lookupDiff (removed.map (fun p => (p.1, op, p.2))) k
      = (lookupD removed k).map (fun v => (op, v)) := by
  induction removed with
  | nil => rfl
  | cons p rest ih =>
    rw [List.map_cons, lookupDiff_cons, lookupD_cons]
    by_cases h : p.1 = k
    · simp [h]
    · simp only [h, if_false]
      exact ih

theorem computeDiff_lookup (C : Colors) {added removed : List (Int × String)}
    (hnd : (added.map Prod.fst).Nodup) (q : Int) :
    lookupDiff (computeDiff C added removed).diff q
      = match lookupD added q, lookupD removed q with
        | none, none => none
        | none, some r => some (C.red ++ "-", r)
        | some a, some r => some (C.blue ++ "R", r ++ " -> " ++ a)
        | some a, none => some (C.green ++ "+", a) := by
  unfold computeDiff
  rw [foldl_applyAdded_lookup C added _ hnd q]
  have : lookupDiff
      ({ diff := removed.map (fun p => (p.1, C.red ++ "-", p.2))
         nAdded := (added.length : Int)
         nRemoved := (removed.length : Int)
         nRenamed := 0 : DiffState }).diff q
      = (lookupD removed q).map (fun v => (C.red ++ "-", v)) :=
    lookupDiff_map_removed _ removed q
  rw [this]
  cases lookupD added q <;> cases lookupD removed q <;> rfl

theorem computeDiff_counters (C : Colors)
    {added removed : List (Int × String)}
    (hnd : (added.map Prod.fst).Nodup) :
    (computeDiff C added removed).nRenamed
        = ((added.filter
            (fun p => p.1 ∈ removed.map Prod.fst)).length : Int) ∧
    (computeDiff C added removed).nAdded
        = (added.length : Int) - (computeDiff C added removed).nRenamed ∧
    (computeDiff C added removed).nRemoved
        = (removed.length : Int) - (computeDiff C added removed).nRenamed ∧
    (computeDiff C added removed).diff.length
        = removed.length + (added.filter
            (fun p => p.1 ∉ removed.map Prod.fst)).length := by
  unfold computeDiff
  obtain ⟨h1, h2, h3, h4⟩ := foldl_applyAdded_counters C added
    { diff := removed.map (fun p => (p.1, C.red ++ "-", p.2))
      nAdded := (added.length : Int)
      nRemoved := (removed.length : Int)
      nRenamed := 0 } hnd
  have e1 : added.filter (fun p =>
        (lookupDiff (removed.map (fun p => (p.1, C.red ++ "-", p.2)))
          p.1).isSome)
      = added.filter (fun p => p.1 ∈ removed.map Prod.fst) :=
    List.filter_congr fun p _ => by
      rw [lookupDiff_map_removed]
      cases h : lookupD removed p.1 with
      | some v =>
        have hm : p.1 ∈ removed.map Prod.fst :=
          List.mem_map.2 ⟨(p.1, v), lookupD_mem h, rfl⟩
        simp [hm]
      | none =>
        have := (lookupD_eq_none removed p.1).1 h
        simp [this]
  have e2 : added.filter (fun p =>
        (lookupDiff (removed.map (fun p => (p.1, C.red ++ "-", p.2)))
          p.1).isNone)
      = added.filter (fun p => p.1 ∉ removed.map Prod.fst) :=
    List.filter_congr fun p _ => by
      rw [lookupDiff_map_removed]
      cases h : lookupD removed p.1 with
      | some v =>
        have hm : p.1 ∈ removed.map Prod.fst :=
          List.mem_map.2 ⟨(p.1, v), lookupD_mem h, rfl⟩
        simp [hm]
      | none =>
        have := (lookupD_eq_none removed p.1).1 h
        simp [this]
  rw [e1] at h1 h2 h3
  rw [e2] at h4
  refine ⟨?_, ?_, ?_, ?_⟩
  · rw [h1]; simp
  · rw [h2, h1]; simp
  · rw [h3, h1]; simp
  · rw [h4]; simp

theorem computeDiff_keys_nodup (C : Colors)
    {added removed : List (Int × String)}
    (hrm : (removed.map Prod.fst).Nodup) :
    (((computeDiff C added removed).diff).map Prod.fst).Nodup := by
  unfold computeDiff
  apply foldl_applyAdded_keys_nodup
  show ((removed.map (fun p => (p.1, C.red ++ "-", p.2))).map
    Prod.fst).Nodup
  rw [List.map_map]
  exact hrm

/-! ## Exit kinds reachable from the table loop -/

theorem processTables_kind (C : Colors) :
    ∀ (ts : List Table) (pa : Option String)
      (ps : Option (List (Int × String))),
      (processTables C pa ps ts).2 = ExitKind.ok ∨
      (processTables C pa ps ts).2 = ExitKind.archMismatch := by
  intro ts
  induction ts with
  | nil => intro pa ps; exact Or.inl rfl
  | cons t rest ih =>
    intro pa ps
    simp only [processTables]
    split
    · exact Or.inr rfl
    · exact ih _ _

theorem not_nodup_dedup_length {α : Type} [DecidableEq α] {l : List α}
    (h : ¬ l.Nodup) : l.dedup.length ≠ l.length := by
  intro hlen
  exact h ((List.dedup_sublist l).eq_of_length hlen ▸ List.nodup_dedup l)

/-- Claim C1.  The program's usage check looks at the number of command-line
arguments, not at the number of tables the glob patterns resolve to: with
fewer than two pattern arguments (`len(argv) < 3`) it exits with the usage
error and no output, and with at least two pattern arguments the usage
error can never be raised, whatever the patterns resolve to. -/
theorem C1_usage_checks_argument_count (tty : Bool)
    (fs : String → List Table) (argv : List String) :
    (argv.length < 3 → runMain tty fs argv = ([], ExitKind.usage)) ∧
    (3 ≤ argv.length → (runMain tty fs argv).2 ≠ ExitKind.usage) := by
  constructor
  · intro h
    simp [runMain, h]
  · intro h
    have h' : ¬ argv.length < 3 := by omega
    simp only [runMain, if_neg h']
    split
    · simp
    · split
      · simp
      · rcases processTables_kind (mkColors tty)
            (sortByVersion (loadTables fs argv.tail)) none none with
          hk | hk <;> simp [hk]

/-- Claim C1, counterexample to the claim as stated: a single glob pattern that
resolves to two tables still triggers the usage error, so "with two or more
resolved tables no usage error is raised" is false. -/
theorem C1_counterexample :
    (loadTables fsTwoInOne (["prog", "pat"].drop 1)).length = 2 ∧
    runMain false fsTwoInOne ["prog", "pat"] = ([], ExitKind.usage) :=
  ⟨by decide, by decide⟩

/-- Claim C1, witness: the theorem applied at concrete inputs on both sides of
the argument-count threshold. -/
theorem C1_witness :
    runMain false fsTwoInOne ["prog", "pat"] = ([], ExitKind.usage) ∧
    (runMain false fsTwoInOne ["prog", "a", "b"]).2 ≠ ExitKind.usage :=
  ⟨(C1_usage_checks_argument_count false fsTwoInOne ["prog", "pat"]).1
      (by decide),
   (C1_usage_checks_argument_count false fsTwoInOne ["prog", "a", "b"]).2
      (by decide)⟩

/-- Claim C4.  If the loaded tables' version tags contain a duplicate (and every
tag parses, so the sort itself succeeds), the run terminates with the
duplicate-version diagnostic and produces no output at all. -/
theorem C4_duplicate_version_fatal (tty : Bool) (fs : String → List Table)
    (argv : List String) (h3 : 3 ≤ argv.length)
    (hparse : (loadTables fs (argv.drop 1)).all
      (fun t => (tag_to_tuple t.version).isSome) = true)
    (hdup : ¬ ((loadTables fs (argv.drop 1)).map
      (fun t => t.version)).Nodup) :
    runMain tty fs argv = ([], ExitKind.dupVersion) := by
  have h' : ¬ argv.length < 3 := by omega
  simp only [runMain, if_neg h', hparse, Bool.not_true, Bool.false_eq_true,
    if_false]
  have hperm : List.Perm
      ((sortByVersion (loadTables fs (argv.drop 1))).map
        (fun t => t.version))
      ((loadTables fs (argv.drop 1)).map (fun t => t.version)) :=
    (List.perm_insertionSort tableLe _).map _
  have hdup' : ¬ ((sortByVersion (loadTables fs (argv.drop 1))).map
      (fun t => t.version)).Nodup := fun hn => hdup (hperm.nodup_iff.mp hn)
  have hlen := not_nodup_dedup_length hdup'
  have hlen' : ((sortByVersion (loadTables fs (argv.drop 1))).map
        (fun t => t.version)).dedup.length
      ≠ (sortByVersion (loadTables fs (argv.drop 1))).length := by
    rwa [List.length_map] at hlen
  rw [List.drop_one] at hlen'
  simp [hlen']

/-- Claim C4, witness: two tables both tagged `v5.11` make the run exit with
the duplicate-version error and empty output. -/
theorem C4_witness :
    runMain false fsDup ["prog", "a", "b"] = ([], ExitKind.dupVersion) :=
  C4_duplicate_version_fatal false fsDup ["prog", "a", "b"] (by decide)
    (by decide) (by decide)

/-- Claim C5.  When the architecture descriptor of the table under iteration
differs from the previous one, the loop stops at once: the mismatching
table's count line is not printed and the remaining tables play no part in
the result; and on the concrete arch-mismatch example the full run keeps
exactly the count line of the earlier table and exits with the
incompatible-architecture kind. -/
theorem C5_arch_mismatch_stops (C : Colors) (a : String)
    (ps : Option (List (Int × String))) (t : Table) (rest : List Table)
    (h : a ≠ arch_bits_abi t) :
    processTables C (some a) ps (t :: rest) = ([], ExitKind.archMismatch)
      ∧ runMain false fsArch ["prog", "a", "b"]
        = (["v5.10: 1 syscalls"], ExitKind.archMismatch) := by
  refine ⟨?_, by decide⟩
  simp only [processTables]
  rw [if_pos]
  simpa using h

/-- Claim C5, witness: the theorem applied to the concrete mismatching pair. -/
theorem C5_witness :
    processTables (mkColors false) (some "x86/64/x64") (some [(0, "read")])
      [exArchB] = ([], ExitKind.archMismatch) :=
  (C5_arch_mismatch_stops (mkColors false) "x86/64/x64" (some [(0, "read")])
    exArchB [] (by decide)).1

/-- Claim C3.  Sorting by version key puts any permutation of the tags `v5.10`,
`v5.11`, `v6.0`, `latest` into exactly that ascending order; tags of the
form `v<major>.<minor>...` parse to finite integer tuples that the key
order compares exactly as lexicographic integer-tuple comparison; and
`latest` parses to the infinite sentinel, which is strictly above every
finite tuple and never below one. -/
theorem C3_version_sort_order :
    (∀ l, l.Perm [mkVer "v5.10", mkVer "v5.11", mkVer "v6.0",
        mkVer "latest"] →
      sortByVersion l
        = [mkVer "v5.10", mkVer "v5.11", mkVer "v6.0", mkVer "latest"]) ∧
    (∀ (tag : String) (l : List Int),
      tag_to_tuple tag = some (VTuple.fin l) →
      vtupleLt (VTuple.fin l) VTuple.inf = true ∧
      vtupleLt VTuple.inf (VTuple.fin l) = false) ∧
    (∀ l m : List Int, vtupleLt (VTuple.fin l) (VTuple.fin m) = lexLt l m) ∧
    tag_to_tuple "latest" = some VTuple.inf := by
  refine ⟨?_, fun tag l _ => ⟨rfl, rfl⟩, fun l m => rfl, by decide⟩
  intro l hl
  have h24 : ∀ p ∈ ([mkVer "v5.10", mkVer "v5.11", mkVer "v6.0",
      mkVer "latest"] : List Table).permutations',
      sortByVersion p = [mkVer "v5.10", mkVer "v5.11", mkVer "v6.0",
        mkVer "latest"] := by decide
  exact h24 l (List.mem_permutations'.2 hl)

/-- Claim C3, witness: the fully reversed input order sorts back to ascending
order, and the `v5.10` tuple sits below the `latest` sentinel. -/
theorem C3_witness :
    sortByVersion [mkVer "latest", mkVer "v6.0", mkVer "v5.11",
        mkVer "v5.10"]
      = [mkVer "v5.10", mkVer "v5.11", mkVer "v6.0", mkVer "latest"] ∧
    vtupleLt (VTuple.fin [5, 10]) VTuple.inf = true :=
  ⟨C3_version_sort_order.1 _ (List.mem_permutations'.1 (by decide)),
   (C3_version_sort_order.2.1 "v5.10" [5, 10] (by decide)).1⟩

/-- Claim C2.  Whenever a syscall number appears both in the removed set and in
the added set of a consecutive table pair, the diff records a single rename
entry `old -> new` for that number, and the counters satisfy the
reclassification arithmetic (one rename counted, one removal and one
addition uncounted for every such number); on the concrete
`{(5,"foo")}`/`{(5,"bar")}` example the full report shows `1 renamed`, the
line `5 (0x5) foo -> bar`, and no added/removed entries. -/
theorem C2_rename_reclassification :
    (∀ (C : Colors) (prev cur : List (Int × String)) (num : Int)
        (oldN newN : String),
      (cur.map Prod.fst).Nodup → (prev.map Prod.fst).Nodup →
      (num, oldN) ∈ pySetDiff prev cur →
      (num, newN) ∈ pySetDiff cur prev →
      (num, C.blue ++ "R", oldN ++ " -> " ++ newN)
          ∈ (computeDiff C (pySetDiff cur prev) (pySetDiff prev cur)).diff ∧
      (computeDiff C (pySetDiff cur prev) (pySetDiff prev cur)).nRenamed
          = (((pySetDiff cur prev).filter (fun p =>
              p.1 ∈ (pySetDiff prev cur).map Prod.fst)).length : Int) ∧
      (computeDiff C (pySetDiff cur prev) (pySetDiff prev cur)).nAdded
          = ((pySetDiff cur prev).length : Int)
            - (computeDiff C (pySetDiff cur prev)
                (pySetDiff prev cur)).nRenamed ∧
      (computeDiff C (pySetDiff cur prev) (pySetDiff prev cur)).nRemoved
          = ((pySetDiff prev cur).length : Int)
            - (computeDiff C (pySetDiff cur prev)
                (pySetDiff prev cur)).nRenamed) ∧
    runMain false fsRename ["prog", "a", "b"]
      = (["v5.10: 1 syscalls", "v5.11: 1 syscalls (1 renamed)",
          "       R 5 (0x5) foo -> bar"], ExitKind.ok) := by
  refine ⟨?_, by decide⟩
  intro C prev cur num oldN newN hcur hprev hrm hadd
  have hndA : ((pySetDiff cur prev).map Prod.fst).Nodup :=
    pySetDiff_keys_nodup prev hcur
  have hndR : ((pySetDiff prev cur).map Prod.fst).Nodup :=
    pySetDiff_keys_nodup cur hprev
  have hla : lookupD (pySetDiff cur prev) num = some newN :=
    lookupD_eq_some_of_mem hndA hadd
  have hlr : lookupD (pySetDiff prev cur) num = some oldN :=
    lookupD_eq_some_of_mem hndR hrm
  have hlook := @computeDiff_lookup C (pySetDiff cur prev)
    (pySetDiff prev cur) hndA num
  rw [hla, hlr] at hlook
  obtain ⟨c1, c2, c3, _⟩ := @computeDiff_counters C (pySetDiff cur prev)
    (pySetDiff prev cur) hndA
  exact ⟨lookupDiff_mem hlook, c1, c2, c3⟩

/-- Claim C2, witness: the general rename fact applied to the concrete pair of
one-element tables `{(5,"foo")}` and `{(5,"bar")}`. -/
theorem C2_witness :
    (5, "" ++ "R", "foo" ++ " -> " ++ "bar")
      ∈ (computeDiff (mkColors false) (pySetDiff [(5, "bar")] [(5, "foo")])
          (pySetDiff [(5, "foo")] [(5, "bar")])).diff :=
  (C2_rename_reclassification.1 (mkColors false) [(5, "foo")] [(5, "bar")]
    5 "foo" "bar" (by decide) (by decide) (by decide) (by decide)).1

/-- Claim C6.  The added set is exactly the set of (number, name) pairs of the
current mapping that are absent from the previous mapping, and the removed
set is the reverse difference, both by exact pair equality; on the concrete
pure-addition example the report shows `+1` and the single added entry
`2 (0x2) open`. -/
theorem C6_exact_pair_differences :
    (∀ (cur prev : List (Int × String)) (p : Int × String),
      (p ∈ pySetDiff cur prev ↔ p ∈ cur ∧ p ∉ prev) ∧
      (p ∈ pySetDiff prev cur ↔ p ∈ prev ∧ p ∉ cur)) ∧
    runMain false fsAdd ["prog", "a", "b"]
      = (["v5.10: 2 syscalls", "v5.11: 3 syscalls (+1)",
          "       + 2 (0x2) open"], ExitKind.ok) :=
  ⟨fun cur prev p => ⟨pySetDiff_mem cur prev p, pySetDiff_mem prev cur p⟩,
   by decide⟩

/-- Claim C9.  For every pair of raw syscall arrays (in any order, with any
duplicates), the sorted diff entries of the pair's diff are strictly
ascending in syscall number, so the emitted diff lines are in ascending
numeric order. -/
theorem C9_diff_lines_ascending (C : Colors)
    (sprev scur : List (Int × String)) :
    ((sortDiff (computeDiff C
        (pySetDiff (buildDict scur) (buildDict sprev))
        (pySetDiff (buildDict sprev) (buildDict scur))).diff).map
          Prod.fst).Pairwise (· < ·) := by
  have hnd : (((computeDiff C
      (pySetDiff (buildDict scur) (buildDict sprev))
      (pySetDiff (buildDict sprev) (buildDict scur))).diff).map
        Prod.fst).Nodup :=
    computeDiff_keys_nodup C
      (pySetDiff_keys_nodup (buildDict scur) (buildDict_keys_nodup sprev))
  have hperm := List.perm_insertionSort entryLe (computeDiff C
      (pySetDiff (buildDict scur) (buildDict sprev))
      (pySetDiff (buildDict sprev) (buildDict scur))).diff
  have hnd' : ((sortDiff (computeDiff C
      (pySetDiff (buildDict scur) (buildDict sprev))
      (pySetDiff (buildDict sprev) (buildDict scur))).diff).map
        Prod.fst).Nodup :=
    (hperm.map Prod.fst).nodup_iff.2 hnd
  have hsorted := List.sorted_insertionSort entryLe (computeDiff C
      (pySetDiff (buildDict scur) (buildDict sprev))
      (pySetDiff (buildDict sprev) (buildDict scur))).diff
  have hnd'' : (sortDiff (computeDiff C
      (pySetDiff (buildDict scur) (buildDict sprev))
      (pySetDiff (buildDict sprev) (buildDict scur))).diff).Pairwise
        (fun a b => a.1 ≠ b.1) :=
    List.pairwise_map.mp hnd'
  rw [List.pairwise_map]
  have hcomb := hsorted.and hnd''
  exact hcomb.imp fun hab => lt_of_le_of_ne hab.1 hab.2

/-- Claim C10.  Per consecutive pair: each syscall number owns at most one diff
entry; the renamed count is the number of added pairs whose number also
occurs among the removed numbers; the added and removed counts are the
respective set sizes minus the renamed count; all three counts are
non-negative; and they sum to the number of diff lines printed. -/
theorem C10_count_invariants (C : Colors)
    (sprev scur : List (Int × String)) :
    (((computeDiff C (pySetDiff (buildDict scur) (buildDict sprev))
        (pySetDiff (buildDict sprev) (buildDict scur))).diff).map
          Prod.fst).Nodup ∧
    ((sortDiff (computeDiff C (pySetDiff (buildDict scur) (buildDict sprev))
        (pySetDiff (buildDict sprev) (buildDict scur))).diff).map
          Prod.fst).Nodup ∧
    (computeDiff C (pySetDiff (buildDict scur) (buildDict sprev))
        (pySetDiff (buildDict sprev) (buildDict scur))).nRenamed
      = (((pySetDiff (buildDict scur) (buildDict sprev)).filter (fun p =>
          p.1 ∈ (pySetDiff (buildDict sprev)
            (buildDict scur)).map Prod.fst)).length : Int) ∧
    (computeDiff C (pySetDiff (buildDict scur) (buildDict sprev))
        (pySetDiff (buildDict sprev) (buildDict scur))).nAdded
      = ((pySetDiff (buildDict scur) (buildDict sprev)).length : Int)
        - (computeDiff C (pySetDiff (buildDict scur) (buildDict sprev))
            (pySetDiff (buildDict sprev) (buildDict scur))).nRenamed ∧
    (computeDiff C (pySetDiff (buildDict scur) (buildDict sprev))
        (pySetDiff (buildDict sprev) (buildDict scur))).nRemoved
      = ((pySetDiff (buildDict sprev) (buildDict scur)).length : Int)
        - (computeDiff C (pySetDiff (buildDict scur) (buildDict sprev))
            (pySetDiff (buildDict sprev) (buildDict scur))).nRenamed ∧
    0 ≤ (computeDiff C (pySetDiff (buildDict scur) (buildDict sprev))
        (pySetDiff (buildDict sprev) (buildDict scur))).nAdded ∧
    0 ≤ (computeDiff C (pySetDiff (buildDict scur) (buildDict sprev))
        (pySetDiff (buildDict sprev) (buildDict scur))).nRemoved ∧
    0 ≤ (computeDiff C (pySetDiff (buildDict scur) (buildDict sprev))
        (pySetDiff (buildDict sprev) (buildDict scur))).nRenamed ∧
    (computeDiff C (pySetDiff (buildDict scur) (buildDict sprev))
        (pySetDiff (buildDict sprev) (buildDict scur))).nAdded
      + (computeDiff C (pySetDiff (buildDict scur) (buildDict sprev))
          (pySetDiff (buildDict sprev) (buildDict scur))).nRemoved
      + (computeDiff C (pySetDiff (buildDict scur) (buildDict sprev))
          (pySetDiff (buildDict sprev) (buildDict scur))).nRenamed
      = (((sortDiff (computeDiff C
          (pySetDiff (buildDict scur) (buildDict sprev))
          (pySetDiff (buildDict sprev) (buildDict scur))).diff).map
            (diffLine C)).length : Int) := by
  have hndA : ((pySetDiff (buildDict scur) (buildDict sprev)).map
      Prod.fst).Nodup :=
    pySetDiff_keys_nodup (buildDict sprev) (buildDict_keys_nodup scur)
  have hndR : ((pySetDiff (buildDict sprev) (buildDict scur)).map
      Prod.fst).Nodup :=
    pySetDiff_keys_nodup (buildDict scur) (buildDict_keys_nodup sprev)
  have hkeys := @computeDiff_keys_nodup C
    (pySetDiff (buildDict scur) (buildDict sprev))
    (pySetDiff (buildDict sprev) (buildDict scur)) hndR
  have hperm := List.perm_insertionSort entryLe (computeDiff C
      (pySetDiff (buildDict scur) (buildDict sprev))
      (pySetDiff (buildDict sprev) (buildDict scur))).diff
  obtain ⟨c1, c2, c3, c4⟩ := @computeDiff_counters C
    (pySetDiff (buildDict scur) (buildDict sprev))
    (pySetDiff (buildDict sprev) (buildDict scur)) hndA
  have hrle : ((pySetDiff (buildDict scur) (buildDict sprev)).filter
        (fun p => p.1 ∈ (pySetDiff (buildDict sprev)
          (buildDict scur)).map Prod.fst)).length
      ≤ (pySetDiff (buildDict sprev) (buildDict scur)).length := by
    set A := pySetDiff (buildDict scur) (buildDict sprev) with hA
    set R := pySetDiff (buildDict sprev) (buildDict scur) with hR
    have hsub : (A.filter (fun p => p.1 ∈ R.map Prod.fst)).map Prod.fst
        ⊆ R.map Prod.fst := by
      intro j hj
      obtain ⟨p, hp, hpj⟩ := List.mem_map.1 hj
      have := (List.mem_filter.1 hp).2
      simpa [hpj] using this
    have hndF : ((A.filter (fun p => p.1 ∈ R.map Prod.fst)).map
        Prod.fst).Nodup :=
      ((List.filter_sublist A).map Prod.fst).nodup hndA
    calc (A.filter (fun p => p.1 ∈ R.map Prod.fst)).length
        = ((A.filter (fun p => p.1 ∈ R.map Prod.fst)).map
            Prod.fst).length := (List.length_map _ _).symm
      _ = ((A.filter (fun p => p.1 ∈ R.map Prod.fst)).map
            Prod.fst).toFinset.card :=
          (List.toFinset_card_of_nodup hndF).symm
      _ ≤ (R.map Prod.fst).toFinset.card :=
          Finset.card_le_card fun j hj =>
            List.mem_toFinset.2 (hsub (List.mem_toFinset.1 hj))
      _ ≤ (R.map Prod.fst).length := List.toFinset_card_le _
      _ = R.length := List.length_map _ _
  have hsplit := @List.length_eq_length_filter_add _
    (pySetDiff (buildDict scur) (buildDict sprev))
    (fun p => decide (p.1 ∈ (pySetDiff (buildDict sprev)
      (buildDict scur)).map Prod.fst))
  have hnotc : (pySetDiff (buildDict scur) (buildDict sprev)).filter
        (fun p => !decide (p.1 ∈ (pySetDiff (buildDict sprev)
          (buildDict scur)).map Prod.fst))
      = (pySetDiff (buildDict scur) (buildDict sprev)).filter
        (fun p => p.1 ∉ (pySetDiff (buildDict sprev)
          (buildDict scur)).map Prod.fst) :=
    List.filter_congr fun p _ => by
      by_cases h : p.1 ∈ (pySetDiff (buildDict sprev)
        (buildDict scur)).map Prod.fst <;> simp [h]
  rw [hnotc] at hsplit
  have hlines : (((sortDiff (computeDiff C
      (pySetDiff (buildDict scur) (buildDict sprev))
      (pySetDiff (buildDict sprev) (buildDict scur))).diff).map
        (diffLine C)).length)
      = (computeDiff C (pySetDiff (buildDict scur) (buildDict sprev))
          (pySetDiff (buildDict sprev) (buildDict scur))).diff.length := by
    rw [List.length_map]
    exact hperm.length_eq
  have hfle := List.length_filter_le
    (fun p => decide (p.1 ∈ (pySetDiff (buildDict sprev)
      (buildDict scur)).map Prod.fst))
    (pySetDiff (buildDict scur) (buildDict sprev))
  refine ⟨hkeys, (hperm.map Prod.fst).nodup_iff.2 hkeys, c1, c2, c3,
    ?_, ?_, ?_, ?_⟩
  · rw [c2, c1]
    have := hfle
    omega
  · rw [c3, c1]
    omega
  · rw [c1]
    positivity
  · rw [c2, c3, c1, hlines, c4]
    omega

/-! ## Overwrite semantics of the per-table dictionary -/

theorem buildDict_append_single (l : List (Int × String))
    (p : Int × String) :
    buildDict (l ++ [p]) = dictInsert (buildDict l) p.1 p.2 := by
  simp [buildDict, List.foldl_append]

theorem lastVal_append_single (l : List (Int × String)) (p : Int × String)
    (k : Int) :
    lastVal (l ++ [p]) k = if p.1 = k then some p.2 else lastVal l k := by
  unfold lastVal
  rw [List.filter_append]
  by_cases h : p.1 = k
  · simp [h, List.getLast?_append]
  · simp [h]

theorem lookupD_mapUpdate_ne (m : List (Int × String)) (j : Int) (v : String)
    (k : Int) (h : k ≠ j) :
    lookupD (m.map (fun p => if p.1 = j then (j, v) else p)) k
      = lookupD m k := by
  induction m with
  | nil => rfl
  | cons e rest ih =>
    simp only [List.map_cons]
    by_cases he : e.1 = j
    · rw [if_pos he, lookupD_cons, lookupD_cons,
        if_neg (show ((j, v) : Int × String).1 ≠ k from fun hh => h hh.symm),
        if_neg (show e.1 ≠ k from fun hh => h (hh ▸ he))]
      exact ih
    · rw [if_neg he, lookupD_cons, lookupD_cons]
      by_cases heq : e.1 = k
      · rw [if_pos heq, if_pos heq]
      · rw [if_neg heq, if_neg heq]
        exact ih

theorem lookupD_mapUpdate_self {m : List (Int × String)} {j : Int}
    (v : String) {w : String} (h : lookupD m j = some w) :
    lookupD (m.map (fun p => if p.1 = j then (j, v) else p)) j = some v := by
  induction m with
  | nil => simp [lookupD] at h
  | cons e rest ih =>
    rw [lookupD_cons] at h
    simp only [List.map_cons]
    by_cases he : e.1 = j
    · rw [if_pos he, lookupD_cons, if_pos rfl]
    · rw [if_neg he] at h
      rw [if_neg he, lookupD_cons, if_neg he]
      exact ih h

theorem lookupD_append_single_ne (m : List (Int × String))
    (p : Int × String) (k : Int) (h : k ≠ p.1) :
    lookupD (m ++ [p]) k = lookupD m k := by
  induction m with
  | nil =>
    rw [List.nil_append, lookupD_cons, if_neg (Ne.symm h)]
  | cons e rest ih =>
    rw [List.cons_append, lookupD_cons, lookupD_cons, ih]

theorem lookupD_append_single_self (m : List (Int × String))
    (p : Int × String) (h : lookupD m p.1 = none) :
    lookupD (m ++ [p]) p.1 = some p.2 := by
  induction m with
  | nil => simp [lookupD, List.find?_cons]
  | cons e rest ih =>
    rw [lookupD_cons] at h
    rw [List.cons_append, lookupD_cons]
    by_cases he : e.1 = p.1
    · rw [if_pos he] at h
      cases h
    · rw [if_neg he] at h
      rw [if_neg he]
      exact ih h

theorem lookupD_dictInsert (m : List (Int × String)) (j : Int) (v : String)
    (k : Int) :
    lookupD (dictInsert m j v) k = if j = k then some v else lookupD m k := by
  unfold dictInsert
  split
  · rename_i hany
    have hs : (lookupD m j).isSome = true := by
      rw [lookupD_isSome]
      simp only [List.any_eq_true, beq_iff_eq] at hany
      obtain ⟨q, hq, hqj⟩ := hany
      simp [List.mem_map.2 ⟨q, hq, hqj⟩]
    obtain ⟨w, hw⟩ := Option.isSome_iff_exists.1 hs
    by_cases h : j = k
    · rw [if_pos h, ← h]
      exact lookupD_mapUpdate_self v hw
    · rw [if_neg h]
      exact lookupD_mapUpdate_ne m j v k (Ne.symm h)
  · rename_i hany
    have hn : lookupD m j = none := by
      rw [← Option.not_isSome_iff_eq_none]
      rw [lookupD_isSome]
      simp only [List.any_eq_true, beq_iff_eq] at hany
      simp only [decide_eq_true_eq]
      intro hm
      obtain ⟨q, hq, hqj⟩ := List.mem_map.1 hm
      exact hany ⟨q, hq, hqj⟩
    by_cases h : j = k
    · rw [if_pos h, ← h]
      exact lookupD_append_single_self m (j, v) hn
    · rw [if_neg h]
      exact lookupD_append_single_ne m (j, v) k (Ne.symm h)

theorem lookupD_buildDict (l : List (Int × String)) (k : Int) :
    lookupD (buildDict l) k = lastVal l k := by
  induction l using List.reverseRecOn with
  | nil => rfl
  | append_singleton l p ih =>
    rw [buildDict_append_single, lookupD_dictInsert, lastVal_append_single]
    by_cases h : p.1 = k
    · rw [if_pos h, if_pos h]
    · rw [if_neg h, if_neg h]
      exact ih

/-- Claim C7, amended.  The per-table count line is the version tag
left-justified (right-padded with spaces) to width 5, a colon, and the
total syscall count; the count is the number of distinct syscall numbers;
and the mapping the count is taken from holds, for each number, the name of
the last record with that number (later records overwrite earlier ones). -/
theorem C7_count_line (t : Table) :
    countLine t (buildDict t.syscalls).length
      = ljust t.version 5 ++ ": "
        ++ Nat.repr (buildDict t.syscalls).length ++ " syscalls" ∧
    (buildDict t.syscalls).length
      = ((t.syscalls.map Prod.fst).dedup).length ∧
    (∀ k, lookupD (buildDict t.syscalls) k = lastVal t.syscalls k) :=
  ⟨rfl, buildDict_length t.syscalls, fun k => lookupD_buildDict t.syscalls k⟩

/-- Claim C7, counterexample to the claim as stated: the tag is padded on
the right (`ljust`), not on the left, so for the 4-character tag `v6.0`
the emitted count line differs from the left-padded rendering the claim
describes. -/
theorem C7_counterexample :
    (runMain false fsPad ["prog", "a", "b"]).1.head?
        = some "v6.0 : 1 syscalls" ∧
    "v6.0 : 1 syscalls"
        ≠ rjust "v6.0" 5 ++ ": " ++ Nat.repr 1 ++ " syscalls" :=
  ⟨by decide, by decide⟩

/-! ## Escape-freedom of the emitted text -/

theorem escFree_append {a b : String} (ha : EscFreeStr a)
    (hb : EscFreeStr b) : EscFreeStr (a ++ b) := by
  intro c hc
  rw [String.data_append] at hc
  rcases List.mem_append.1 hc with h | h
  · exact ha c h
  · exact hb c h

theorem escFree_ite (c : Prop) [Decidable c] {a b : String}
    (ha : EscFreeStr a) (hb : EscFreeStr b) :
    EscFreeStr (if c then a else b) := by
  split
  · exact ha
  · exact hb

theorem digitChar_ne_esc (n : Nat) : Nat.digitChar n ≠ escChar := by
  by_cases h : n < 16
  · interval_cases n <;> decide
  · have e : Nat.digitChar n = '*' := by
      unfold Nat.digitChar
      repeat rw [if_neg (by omega)]
    rw [e]
    decide

theorem toDigitsCore_ne_esc (b : Nat) :
    ∀ (fuel n : Nat) (ds : List Char), (∀ c ∈ ds, c ≠ escChar) →
      ∀ c ∈ Nat.toDigitsCore b fuel n ds, c ≠ escChar := by
  intro fuel
  induction fuel with
  | zero => intro n ds hds c hc; exact hds c hc
  | succ fuel ih =>
    intro n ds hds c hc
    simp only [Nat.toDigitsCore] at hc
    have hcons : ∀ c' ∈ (Nat.digitChar (n % b) :: ds), c' ≠ escChar := by
      intro c' hc'
      rcases List.mem_cons.1 hc' with h | h
      · exact h ▸ digitChar_ne_esc _
      · exact hds c' h
    split at hc
    · exact hcons c hc
    · exact ih _ _ hcons c hc

theorem natRepr_escFree (n : Nat) : EscFreeStr (Nat.repr n) := by
  intro c hc
  have hm : c ∈ Nat.toDigits 10 n := hc
  exact toDigitsCore_ne_esc 10 (n + 1) n [] (by intro c' hc'; cases hc') c hm

theorem intRepr_escFree (i : Int) : EscFreeStr (Int.repr i) := by
  cases i with
  | ofNat n => exact natRepr_escFree n
  | negSucc n => exact escFree_append (by decide) (natRepr_escFree _)

theorem natHex_escFree (n : Nat) : EscFreeStr (natHex n) := by
  intro c hc
  have hm : c ∈ Nat.toDigits 16 n := hc
  exact toDigitsCore_ne_esc 16 (n + 1) n [] (by intro c' hc'; cases hc') c hm

theorem pyHexFmt_escFree (i : Int) : EscFreeStr (pyHexFmt i) := by
  unfold pyHexFmt
  split
  · exact escFree_append (by decide) (natHex_escFree _)
  · exact escFree_append (by decide) (natHex_escFree _)

theorem replicate_escFree (w : Nat) :
    EscFreeStr (String.mk (List.replicate w ' ')) := by
  intro c hc
  have h : c = ' ' := List.eq_of_mem_replicate hc
  subst h
  decide

theorem ljust_escFree {s : String} (hs : EscFreeStr s) (w : Nat) :
    EscFreeStr (ljust s w) :=
  escFree_append hs (replicate_escFree _)

theorem countLine_escFree {t : Table} (h : EscFreeStr t.version) (n : Nat) :
    EscFreeStr (countLine t n) :=
  escFree_append
    (escFree_append (escFree_append (ljust_escFree h 5) (by decide))
      (natRepr_escFree n))
    (by decide)

theorem summaryText_escFree {C : Colors} (hC : ColorsEscFree C)
    (st : DiffState) : EscFreeStr (summaryText C st) := by
  obtain ⟨hr, hg, hb, hrst⟩ := hC
  unfold summaryText
  refine escFree_append (escFree_append (escFree_append
    (escFree_append (by decide) ?_) ?_) ?_) (by decide)
  · exact escFree_ite _
      (escFree_append (escFree_append (escFree_append hg (by decide))
        (intRepr_escFree _)) hrst)
      (by decide)
  · exact escFree_ite _
      (escFree_append (escFree_append (escFree_append (escFree_append
        (escFree_ite _ (by decide) (by decide)) hr) (by decide))
        (intRepr_escFree _)) hrst)
      (by decide)
  · exact escFree_ite _
      (escFree_append (escFree_append (escFree_append (escFree_append
        (escFree_ite _ (by decide) (by decide)) hb)
        (intRepr_escFree _)) (by decide)) hrst)
      (by decide)

theorem diffLine_escFree {C : Colors} (hrst : EscFreeStr C.reset)
    {e : Int × String × String} (h1 : EscFreeStr e.2.1)
    (h2 : EscFreeStr e.2.2) : EscFreeStr (diffLine C e) := by
  unfold diffLine
  exact escFree_append (escFree_append (escFree_append (escFree_append
    (escFree_append (escFree_append (escFree_append (escFree_append
      (by decide) h1) (by decide)) (intRepr_escFree _)) (by decide))
    (pyHexFmt_escFree _)) (by decide)) h2) hrst

theorem applyAdded_entries_escFree {C : Colors} (hC : ColorsEscFree C)
    {st : DiffState} {p : Int × String}
    (hst : ∀ e ∈ st.diff, EscFreeStr e.2.1 ∧ EscFreeStr e.2.2)
    (hp : EscFreeStr p.2) :
    ∀ e ∈ (applyAdded C st p).diff,
      EscFreeStr e.2.1 ∧ EscFreeStr e.2.2 := by
  obtain ⟨hr, hg, hb, hrst⟩ := hC
  intro e he
  unfold applyAdded at he
  cases hl : lookupDiff st.diff p.1 with
  | some w =>
    obtain ⟨op, old⟩ := w
    rw [hl] at he
    have hold : EscFreeStr old := (hst _ (lookupDiff_mem hl)).2
    obtain ⟨q, hq, hqe⟩ := List.mem_map.1 he
    by_cases hqp : q.1 = p.1
    · rw [if_pos hqp] at hqe
      rw [← hqe]
      exact ⟨escFree_append hb (by decide),
        escFree_append (escFree_append hold (by decide)) hp⟩
    · rw [if_neg hqp] at hqe
      exact hqe ▸ hst q hq
  | none =>
    rw [hl] at he
    rcases List.mem_append.1 he with h | h
    · exact hst e h
    · simp only [List.mem_singleton] at h
      rw [h]
      exact ⟨escFree_append hg (by decide), hp⟩

theorem foldl_applyAdded_entries_escFree {C : Colors}
    (hC : ColorsEscFree C) :
    ∀ (as : List (Int × String)) (st : DiffState),
      (∀ q ∈ as, EscFreeStr q.2) →
      (∀ e ∈ st.diff, EscFreeStr e.2.1 ∧ EscFreeStr e.2.2) →
      ∀ e ∈ (as.foldl (applyAdded C) st).diff,
        EscFreeStr e.2.1 ∧ EscFreeStr e.2.2 := by
  intro as
  induction as with
  | nil => intro st _ hst; exact hst
  | cons p rest ih =>
    intro st has hst
    refine ih _ (fun q hq => has q (List.mem_cons_of_mem p hq)) ?_
    exact applyAdded_entries_escFree ⟨hC.1, hC.2.1, hC.2.2.1, hC.2.2.2⟩ hst
      (has p (List.mem_cons_self p rest))

theorem computeDiff_entries_escFree {C : Colors} (hC : ColorsEscFree C)
    {added removed : List (Int × String)}
    (ha : ∀ q ∈ added, EscFreeStr q.2)
    (hrm : ∀ q ∈ removed, EscFreeStr q.2) :
    ∀ e ∈ (computeDiff C added removed).diff,
      EscFreeStr e.2.1 ∧ EscFreeStr e.2.2 := by
  unfold computeDiff
  refine foldl_applyAdded_entries_escFree hC added _ ha ?_
  intro e he
  obtain ⟨q, hq, hqe⟩ := List.mem_map.1 he
  rw [← hqe]
  exact ⟨escFree_append hC.1 (by decide), hrm q hq⟩

theorem pairLines_escFree {C : Colors} (hC : ColorsEscFree C)
    {ps sys : List (Int × String)} {base : String}
    (hps : ∀ q ∈ ps, EscFreeStr q.2) (hsys : ∀ q ∈ sys, EscFreeStr q.2)
    (hbase : EscFreeStr base) :
    ∀ line ∈ pairLines C ps sys base, EscFreeStr line := by
  intro line hline
  simp only [pairLines] at hline
  split at hline
  · simp only [List.mem_singleton] at hline
    exact hline ▸ hbase
  · rcases List.mem_cons.1 hline with h | h
    · exact h ▸ escFree_append hbase (summaryText_escFree hC _)
    · obtain ⟨e, he, hle⟩ := List.mem_map.1 h
      have hmem : e ∈ (computeDiff C (pySetDiff sys ps)
          (pySetDiff ps sys)).diff :=
        (List.perm_insertionSort entryLe _).mem_iff.1 he
      have hent := computeDiff_entries_escFree hC
        (fun q hq => hsys q ((pySetDiff_mem sys ps q).1 hq).1)
        (fun q hq => hps q ((pySetDiff_mem ps sys q).1 hq).1)
        e hmem
      exact hle ▸ diffLine_escFree hC.2.2.2 hent.1 hent.2

theorem processTables_escFree {C : Colors} (hC : ColorsEscFree C) :
    ∀ (ts : List Table) (pa : Option String)
      (ps : Option (List (Int × String))),
      (∀ t ∈ ts, TableEscFree t) →
      (∀ l, ps = some l → ∀ q ∈ l, EscFreeStr q.2) →
      ∀ line ∈ (processTables C pa ps ts).1, EscFreeStr line := by
  intro ts
  induction ts with
  | nil => intro pa ps _ _ line h; cases h
  | cons t rest ih =>
    intro pa ps hts hps line hline
    have ht : TableEscFree t := hts t (List.mem_cons_self t rest)
    have hsys : ∀ q ∈ buildDict t.syscalls, EscFreeStr q.2 :=
      buildDict_values ht.2
    simp only [processTables] at hline
    split at hline
    · cases hline
    · rcases List.mem_append.1 hline with h | h
      · cases hpsm : ps with
        | none =>
          rw [hpsm] at h
          simp only [List.mem_singleton] at h
          exact h ▸ countLine_escFree ht.1 _
        | some l =>
          rw [hpsm] at h
          exact pairLines_escFree hC (hps l hpsm) hsys
            (countLine_escFree ht.1 _) line h
      · refine ih _ _ (fun u hu => hts u (List.mem_cons_of_mem t hu))
          ?_ line h
        intro l hl q hq
        cases hl
        exact hsys q hq

theorem mem_loadTables {fs : String → List Table} :
    ∀ {pats : List String} {t : Table}, t ∈ loadTables fs pats →
      ∃ pat ∈ pats, t ∈ fs pat := by
  suffices h : ∀ (pats : List String) (acc : List Table) (t : Table),
      t ∈ pats.foldl (fun acc p => acc ++ fs p) acc →
      t ∈ acc ∨ ∃ pat ∈ pats, t ∈ fs pat by
    intro pats t ht
    rcases h pats [] t ht with h' | h'
    · cases h'
    · exact h'
  intro pats
  induction pats with
  | nil => intro acc t ht; exact Or.inl ht
  | cons p rest ih =>
    intro acc t ht
    rcases ih (acc ++ fs p) t ht with h' | h'
    · rcases List.mem_append.1 h' with h'' | h''
      · exact Or.inl h''
      · exact Or.inr ⟨p, List.mem_cons_self p rest, h''⟩
    · obtain ⟨pat, hpat, hmem⟩ := h'
      exact Or.inr ⟨pat, List.mem_cons_of_mem p hpat, hmem⟩

/-- Claim C8, amended.  When standard output is not a terminal all four
color codes are the empty string, and — provided the input tables' version
tags and syscall names themselves contain no escape character — every
emitted line is free of escape characters.  (The proviso is forced: escape
characters inside input names are copied to the output verbatim.) -/
theorem C8_no_color_when_not_tty (fs : String → List Table)
    (argv : List String) (h : ∀ pat, ∀ t ∈ fs pat, TableEscFree t) :
    mkColors false = ⟨"", "", "", ""⟩ ∧
    ∀ line ∈ (runMain false fs argv).1, EscFreeStr line := by
  refine ⟨rfl, ?_⟩
  intro line hline
  simp only [runMain] at hline
  split at hline
  · cases hline
  · split at hline
    · cases hline
    · split at hline
      · cases hline
      · refine processTables_escFree ?_ _ none none ?_ ?_ line hline
        · exact ⟨by decide, by decide, by decide, by decide⟩
        · intro t hts
          have hmem : t ∈ loadTables fs (argv.drop 1) :=
            (List.perm_insertionSort tableLe _).mem_iff.1 hts
          obtain ⟨pat, _, hpat⟩ := mem_loadTables hmem
          exact h pat t hpat
        · intro l hl
          cases hl

/-- Claim C8, counterexample to the claim as stated: with output not a
terminal, an input table whose syscall name contains an escape character
produces output containing that escape character, so "no ANSI escape
sequences for every input" fails. -/
theorem C8_counterexample :
    ((runMain false fsEsc ["prog", "a", "b"]).1.any
      (fun l => l.data.contains escChar)) = true := by decide

/-- Claim C8, witness: on the concrete rename example (whose fields are
escape-free) no emitted line contains the escape character. -/
theorem C8_witness :
    ((runMain false fsRename ["prog", "a", "b"]).1.any
      (fun l => l.data.contains escChar)) = false := by
  have h : ∀ pat, ∀ t ∈ fsRename pat, TableEscFree t := by
    intro pat t ht
    unfold fsRename at ht
    split at ht
    · simp only [List.mem_singleton] at ht
      subst ht
      exact ⟨by decide, by intro p hp; simp only [exFoo,
        List.mem_singleton] at hp; subst hp; decide⟩
    · split at ht
      · simp only [List.mem_singleton] at ht
        subst ht
        exact ⟨by decide, by intro p hp; simp only [exBar,
          List.mem_singleton] at hp; subst hp; decide⟩
      · cases ht
  have h2 := (C8_no_color_when_not_tty fsRename ["prog", "a", "b"] h).2
  rw [List.any_eq_false]
  intro l hl hc
  have hmem : escChar ∈ l.data := by simpa [List.contains] using hc
  exact h2 l hl escChar hmem rfl

end SyscallsHistory
